import Mathlib

/-!
Verification of the graph search task (`search_graph.cc`) of this repository.

The task labels nodes of a hypergraph by iterated collective classification:
it builds an adjacency structure from a flat record list (nodes then edges),
computes a BFS traversal order, runs several alternating-direction passes in
which each node's example is temporarily augmented with features derived from
its neighbors' current predictions, and finally scores the predictions with a
macro-F1 confusion-matrix metric.

Shallow embedding conventions:
* a record's cost vector is its list of `class_index` values (`Costs`);
* machine unsigned arithmetic is `Nat` with explicit `% 2^32` where the
  source computes in `uint32_t`;
* `float` quantities that the claims treat algebraically (feature values,
  sum-of-squares, histogram counts, F1 scores) are embedded as `ℚ`;
* out-of-bounds vector accesses (undefined behavior in C++) are modelled by
  `Option`/`Except` failure.
-/

/-- A record's cost vector, reduced to its list of `class_index` fields
(`ec[i]->l.cs.costs[j].class_index`).  For a node record this is its label
list (at most one entry); for an edge record it is the list of referenced
node ids. -/
abbrev Costs := List Nat

/-- `example_is_edge` (line 116): a record is an edge iff it carries more
than one cost entry. -/
def example_is_edge (c : Costs) : Bool := decide (1 < c.length)

/-- `example_is_test` (line 75): a record is a test example iff it carries
no cost entry. -/
def example_is_test (c : Costs) : Bool := decide (c.length = 0)

/-- `class_index - 1` as the source computes it: `class_index` is `uint32_t`,
so subtracting the `int` literal 1 happens in 32-bit unsigned arithmetic
(wrapping to `2^32 - 1` when `class_index = 0`) before any widening to
`size_t`. -/
def sub1u32 (cid : Nat) : Nat := (cid + 2^32 - 1) % 2^32

/-- Whether an edge-referenced id fails the validation of setup lines
181-184: rejected exactly when it is strictly greater than `N`. -/
def edgeIdTooLarge (N cid : Nat) : Bool := decide (N < cid)

/-- One adjacency append of setup lines 187-189: for referenced id `cid`
the source computes `nn = class_index - 1` and pushes edge-example id `i`
onto `adj[nn]` unless `i` is already the last entry (adjacent-duplicate
suppression).  `adj[nn]` on an out-of-range index is an out-of-bounds
`std::vector` access (undefined behavior), modelled as `none`. -/
def adjAppend (adj : List (List Nat)) (nn i : Nat) : Option (List (List Nat)) :=
  if h : nn < adj.length then
    let l := adj.get ⟨nn, h⟩
    some (adj.set nn (if l.getLast? = some i then l else l ++ [i]))
  else none

/-- The per-edge body of setup lines 180-190: first validate every
referenced id of record `c` against `N` (fatal error when one exceeds `N`),
then append the record's example id `i` to the adjacency row of every
referenced id. -/
def processOneEdge (N : Nat) (c : Costs) (i : Nat) (adj : List (List Nat)) :
    Except String (List (List Nat)) :=
  if c.any (edgeIdTooLarge N) then
    Except.error "error: edge source points to too large of a node id"
  else
    c.foldlM (fun a cid =>
      match adjAppend a (sub1u32 cid) i with
      | some a2 => Except.ok a2
      | none => Except.error "undefined behavior: adjacency index out of bounds") adj

/-- The edge scan of setup lines 179-191: iterate example ids `i` from `N`
to `ec.length - 1` over the remaining records, building the adjacency
rows. -/
def processEdges (ec : List Costs) (N : Nat) (adj0 : List (List Nat)) :
    Except String (List (List Nat)) :=
  ((List.range ec.length).drop N).foldlM
    (fun adj i => processOneEdge N (ec.getD i []) i adj) adj0

/-- The first scan of setup lines 161-173: classify each record as edge or
node, counting both, and raise the fatal error of line 167 when a node
record appears after an edge record has been seen.  (The label-prior
accumulation into `true_counts`, lines 169-172, feeds only the dead
example-weight computation of `run` and is not modelled.) -/
def scanRecords : List Costs → Nat → Nat → Except String (Nat × Nat)
  | [], n, e => Except.ok (n, e)
  | c :: rest, n, e =>
    if example_is_edge c then scanRecords rest n (e+1)
    else if 0 < e then Except.error "error: got a node after getting edges!"
    else scanRecords rest (n+1) e

/-- One touch attempt of `run_bfs` lines 132-136: `m = class_index - 1`
(32-bit unsigned), then push `m` and mark it touched unless already
touched.  `touched[m]` out of range is undefined behavior (`none`).
State is `(bfs, touched)`. -/
def touchCost (st : List Nat × List Bool) (cid : Nat) : Option (List Nat × List Bool) :=
  let m := sub1u32 cid
  if h : m < st.2.length then
    if st.2.get ⟨m, h⟩ then some st
    else some (st.1 ++ [m], st.2.set m true)
  else none

/-- The expansion of one queue entry, `run_bfs` lines 129-137: for every
edge-example id in `adj[n]`, for every id referenced by that record, try to
touch the corresponding node. -/
def expandNode (ec : List Costs) (adj : List (List Nat)) (st : List Nat × List Bool)
    (n : Nat) : Option (List Nat × List Bool) := do
  let edges ← adj.get? n
  edges.foldlM (fun s id => do
    let costs ← ec.get? id
    costs.foldlM touchCost s) st

/-- The nested loops of `run_bfs` lines 126-149, driven by explicit fuel.
While fewer than `N` nodes are queued: expand the next unexpanded queue
entry if one remains, otherwise seed the lowest-indexed untouched node
(lines 141-148) and continue from the same queue position.  Once the queue
holds `N` nodes the remaining expansions of the source add nothing (all
nodes are touched), so the queue is returned. -/
def bfsLoop (ec : List Costs) (adj : List (List Nat)) (N : Nat) :
    Nat → List Nat → List Bool → Nat → Option (List Nat)
  | 0, _, _, _ => none
  | fuel+1, bfs, touched, i =>
    if bfs.length < N then
      if h : i < bfs.length then
        match expandNode ec adj (bfs, touched) (bfs.get ⟨i, h⟩) with
        | none => none
        | some (bfs2, touched2) => bfsLoop ec adj N fuel bfs2 touched2 (i+1)
      else
        match (List.range N).find? (fun m => ! touched.getD m false) with
        | some m => bfsLoop ec adj N fuel (bfs ++ [m]) (touched.set m true) i
        | none => none
    else some bfs

/-- `run_bfs` (lines 118-150): seed the queue with node 0 (marking
`touched[0]`, an out-of-bounds write when `N = 0`) and run the traversal
loops.  Fuel `2*N + 1` dominates the loop count: each expansion advances
the queue position and each seeding grows the queue. -/
def run_bfs (ec : List Costs) (adj : List (List Nat)) (N : Nat) : Option (List Nat) :=
  if N = 0 then none
  else bfsLoop ec adj N (2*N + 1) [0] ((List.replicate N false).set 0 true) 0

/-- `setup` (lines 152-198): scan and classify the records, reject edges
without nodes (line 175), build the adjacency rows, run the traversal, and
initialize every prediction to the sentinel `K+1` (lines 195-197).  Returns
the built adjacency, traversal order and prediction array; every fatal
`throw` of the source is an `Except.error`. -/
def setup (K : Nat) (ec : List Costs) :
    Except String (List (List Nat) × List Nat × List Nat) := do
  let (N, E) ← scanRecords ec 0 0
  if N = 0 ∧ 0 < E then
    Except.error "error: got edges without any nodes (perhaps ring_size is too small?)!"
  else
    let adj ← processEdges ec N (List.replicate N [])
    match run_bfs ec adj N with
    | none => Except.error "undefined behavior in run_bfs"
    | some bfs => Except.ok (adj, bfs, List.replicate N (K+1))

/-- A single feature: value `x` (float in the source, embedded as `ℚ`) and
weight index `weight_index` (`uint32_t`). -/
structure Feature where
  x : ℚ
  wi : Nat
deriving DecidableEq, Repr

/-- Modelled from the spec: the dedicated "neighbor" namespace constant
`neighbor_namespace` is declared in `search_graph.h`, which is not under
`src/`; the spec only calls it "a dedicated neighbor namespace".  Its exact
value is irrelevant to every claim; it is fixed here. -/
def neighbor_namespace : Nat := 110

/-- The derived weight index computed by both feature injectors (lines 216
and 229): `(uint32_t)((fx2 + 348919043 * k) * multiplier) & (uint32_t)mask`,
with the product and sum taken in `size_t` and the final cast truncating to
32 bits. -/
def derivedIndex (mult mask fx2 k : Nat) : Nat :=
  (((fx2 + 348919043 * k) * mult) % 2^32) &&& (mask % 2^32)

/-- `add_edge_features_single_fn` (lines 223-233): defensive stride check
(`none` models the thrown "eek" exception), `fx2 = fx / multiplier`,
`k = (size_t) neighbor_predictions[0]`, and injection of one feature with
the value unchanged. -/
def add_edge_features_single_fn (mult mask : Nat) (np0 : ℚ) (fv : ℚ) (fx : Nat) :
    Option Feature :=
  if fx / mult * mult ≠ fx then none
  else
    let fx2 := fx / mult
    let k := (⌊np0⌋).toNat
    some ⟨fv, derivedIndex mult mask fx2 k⟩

/-- `add_edge_features_group_fn` (lines 207-221): defensive stride check,
then for every label bucket `k ≤ K` with nonzero histogram count inject a
feature of value `fv * neighbor_predictions[k]` at the derived index. -/
def add_edge_features_group_fn (K mult mask : Nat) (np : List ℚ) (fv : ℚ) (fx : Nat) :
    Option (List Feature) :=
  if fx / mult * mult ≠ fx then none
  else
    let fx2 := fx / mult
    some ((List.range (K+1)).filterMap (fun k =>
      if np.getD k 0 = 0 then none
      else some ⟨fv * np.getD k 0, derivedIndex mult mask fx2 k⟩))

/-- One step of the neighbor-prediction histogram build of
`add_edge_features` lines 245-251: skip the endpoint when it is the node
`n` being augmented, otherwise bump histogram bucket `pred[m] - 1`, count
it in `pred_total` and remember it as `last_pred`.  State is
`(neighbor_predictions, pred_total, last_pred)`. -/
def histStep (pred : List Nat) (n : Nat) (st : List ℚ × ℚ × Nat) (cid : Nat) :
    List ℚ × ℚ × Nat :=
  let m := sub1u32 cid
  if m = n then st
  else
    let b := pred.getD m 0 - 1
    (st.1.set b (st.1.getD b 0 + 1), st.2.1 + 1, b)

/-- The neighbor-prediction histogram build of `add_edge_features` lines
241-251 (structural case), folding `histStep` from the cleared scratch
state of line 239. -/
def buildHistogram (K : Nat) (pred : List Nat) (n : Nat) (costs : Costs) :
    List ℚ × ℚ × Nat :=
  costs.foldl (histStep pred n) (List.replicate (K+1) 0, 0, 0)

/-- The per-edge dispatch of `add_edge_features` lines 238-266: build the
histogram (or the degenerate single-bucket histogram when structural
features are off, lines 252-256); skip the edge when no neighbor
contributed (line 258); use the single-feature injector when exactly one
did (with `neighbor_predictions[0]` overwritten by `(float) last_pred`,
line 262), else the group injector.  Returns the features injected for
this edge. -/
def processEdgeDispatch (K mult mask : Nat) (use_structure : Bool) (pred : List Nat)
    (n : Nat) (costs : Costs) (edgeFeats : List Feature) : Option (List Feature) :=
  let h := if use_structure then buildHistogram K pred n costs
           else ((List.replicate (K+1) (0:ℚ)).set 0 1, (1:ℚ), 0)
  if h.2.1 = 0 then some []
  else if h.2.1 ≤ 1 then
    edgeFeats.mapM (fun f => add_edge_features_single_fn mult mask ((h.2.2 : ℕ) : ℚ) f.x f.wi)
  else
    edgeFeats.foldlM
      (fun acc f => (add_edge_features_group_fn K mult mask h.1 f.x f.wi).map (acc ++ ·)) []

/-- The full injection gathering of `add_edge_features` lines 238-266: the
concatenation, over the edge-example ids incident to `n`, of the features
injected for each edge.  Each record is given as its cost vector paired
with the features the feature-iteration primitive would visit. -/
def edgeInjections (K mult mask : Nat) (use_structure : Bool) (pred : List Nat)
    (ec : List (Costs × List Feature)) (adj : List (List Nat)) (n : Nat) :
    Option (List Feature) :=
  (adj.getD n []).foldlM (fun acc i =>
    (processEdgeDispatch K mult mask use_structure pred n
        (ec.getD i ([], [])).1 (ec.getD i ([], [])).2).map (acc ++ ·)) []

/-- The observable state of one node's example: per-namespace feature lists
(`atomics`), per-namespace sum-of-squares (`sum_feat_sq`), the active
namespace list (`indices`), and the running totals. -/
structure VWExample where
  atomics : Nat → List Feature
  sum_feat_sq : Nat → ℚ
  indices : List Nat
  total_sum_feat_sq : ℚ
  num_features : Nat

/-- The example mutation of `add_edge_features` lines 217-218, 230-231 and
267-279, applied to the gathered injected features `fs`: append them to the
neighbor namespace accumulating its sum-of-squares; push the namespace onto
`indices`; add the namespace's sum-of-squares and feature count to the
totals; then for every configured namespace pair involving the neighbor
namespace add the cross-term feature count and sum-of-squares product. -/
def applyAugment (pairs : List (Nat × Nat)) (fs : List Feature) (e : VWExample) :
    VWExample :=
  let e1 : VWExample :=
    { e with
      atomics := fun ns =>
        if ns = neighbor_namespace then e.atomics ns ++ fs else e.atomics ns,
      sum_feat_sq := fun ns =>
        if ns = neighbor_namespace then
          e.sum_feat_sq ns + (fs.map (fun f => f.x * f.x)).sum
        else e.sum_feat_sq ns }
  let e2 : VWExample :=
    { e1 with
      indices := e1.indices ++ [neighbor_namespace],
      total_sum_feat_sq := e1.total_sum_feat_sq + e1.sum_feat_sq neighbor_namespace,
      num_features := e1.num_features + (e1.atomics neighbor_namespace).length }
  pairs.foldl (fun ex p =>
    if p.1 = neighbor_namespace ∨ p.2 = neighbor_namespace then
      { ex with
        num_features := ex.num_features + (ex.atomics p.1).length * (ex.atomics p.2).length,
        total_sum_feat_sq := ex.total_sum_feat_sq + ex.sum_feat_sq p.1 * ex.sum_feat_sq p.2 }
    else ex) e2

/-- `add_edge_features` (lines 235-281) restricted to its effect on node
`n`'s example: gather the injected features over the incident edges, then
apply the accounting mutation. -/
def add_edge_features (pairs : List (Nat × Nat)) (K mult mask : Nat)
    (use_structure : Bool) (pred : List Nat) (ec : List (Costs × List Feature))
    (adj : List (List Nat)) (n : Nat) (e : VWExample) : Option VWExample :=
  (edgeInjections K mult mask use_structure pred ec adj n).map
    (fun fs => applyAugment pairs fs e)

/-- `del_edge_features` (lines 283-289): pop the last active namespace,
subtract the neighbor namespace's sum-of-squares and feature count from the
totals, erase its features and zero its sum-of-squares. -/
def del_edge_features (e : VWExample) : VWExample :=
  { e with
    indices := e.indices.dropLast,
    total_sum_feat_sq := e.total_sum_feat_sq - e.sum_feat_sq neighbor_namespace,
    num_features := e.num_features - (e.atomics neighbor_namespace).length,
    atomics := fun ns => if ns = neighbor_namespace then [] else e.atomics ns,
    sum_feat_sq := fun ns => if ns = neighbor_namespace then 0 else e.sum_feat_sq ns }

/-- `IDX(i,j) = i * (K+1) + j` (line 291), the flat confusion-matrix
index. -/
def IDX (K i j : Nat) : Nat := i * (K+1) + j

/-- Row sum `trueC` of `macro_f` (lines 297-302): `Σ_{j=1..K}
confusion[k][j]`. -/
def trueCount (K : Nat) (cm : List Nat) (k : Nat) : ℚ :=
  ((List.range K).map (fun j => (cm.getD (IDX K k (j+1)) 0 : ℚ))).sum

/-- Column sum `predC` of `macro_f` (lines 297-302): `Σ_{j=1..K}
confusion[j][k]`. -/
def predCount (K : Nat) (cm : List Nat) (k : Nat) : ℚ :=
  ((List.range K).map (fun j => (cm.getD (IDX K (j+1) k) 0 : ℚ))).sum

/-- The loop body of `macro_f` (lines 296-311) acting on the accumulator
`(total_f1, count_f1)` for loop variable `kk` (the label is `k = kk + 1`):
skip the label when its row sum is zero, otherwise count it and, when the
diagonal entry is positive, add `2·pre·rec/(pre+rec)`. -/
def macroFoldStep (K : Nat) (cm : List Nat) (acc : ℚ × ℚ) (kk : Nat) : ℚ × ℚ :=
  let k := kk + 1
  let tC := trueCount K cm k
  if tC = 0 then acc
  else
    let correctC : ℚ := (cm.getD (IDX K k k) 0 : ℚ)
    if 0 < correctC then
      let pre := correctC / predCount K cm k
      let rcl := correctC / tC
      (acc.1 + 2 * pre * rcl / (pre + rcl), acc.2 + 1)
    else (acc.1, acc.2 + 1)

/-- `macro_f` (lines 293-313): fold the loop body over labels `k = 1..K`
starting from `(0, 0)` and return `total_f1 / count_f1`. -/
def macro_f (K : Nat) (cm : List Nat) : ℚ :=
  let r := (List.range K).foldl (macroFoldStep K cm) (0, 0)
  r.1 / r.2

/-- Modelled from the spec (§4.5): the per-label F1 score — zero when the
diagonal entry is not positive, else `2·precision·recall /
(precision + recall)`. -/
def labelF1 (K : Nat) (cm : List Nat) (k : Nat) : ℚ :=
  let c : ℚ := (cm.getD (IDX K k k) 0 : ℚ)
  if 0 < c then
    let pre := c / predCount K cm k
    let rcl := c / trueCount K cm k
    2 * pre * rcl / (pre + rcl)
  else 0

/-- Modelled from the spec (§4.5): the macro-F1 average written as an
explicit filtered sum, to be compared with the source's `macro_f` fold:
average, over labels `1..K` with nonzero row sum, of the per-label F1. -/
def macroF1_spec (K : Nat) (cm : List Nat) : ℚ :=
  let labels := ((List.range K).map (· + 1)).filter (fun k => trueCount K cm k ≠ 0)
  ((labels.map (labelF1 K cm)).sum) / (labels.length : ℚ)

/-- The final confusion-matrix accumulation of `run` lines 365-366: for
every node, increment `confusion[costs[0].class_index][pred[n]]`.  The
source reads `costs[0]` without any bounds check, so a node with an empty
cost vector (an unlabeled/test node) is an out-of-bounds read, modelled as
`none`; an increment target outside the matrix likewise. -/
def updateConfusion (K : Nat) : List Costs → List Nat → List Nat → Option (List Nat)
  | [], _, cm => some cm
  | costs :: rest, p :: preds, cm =>
    match costs.head? with
    | none => none
    | some cid =>
      let ix := IDX K cid p
      if ix < cm.length then
        updateConfusion K rest preds (cm.set ix (cm.getD ix 0 + 1))
      else none
  | _ :: _, [], _ => none

/-- The conditioning gathering of `run` lines 349-356, exactly as written:
the outer loop runs `i` over the positions `0 .. adj[n].size()-1` but the
body reads `ec[i]` — the record at position `i` of the episode's record
list — and adds a condition on `m + 1` for every referenced id with
`m = class_index - 1 ≠ n`. -/
def runConditions (ec : List Costs) (adj : List (List Nat)) (n : Nat) : List Nat :=
  List.flatten ((List.range (adj.getD n []).length).map (fun i =>
    (ec.getD i []).filterMap (fun cid =>
      let m := sub1u32 cid
      if m = n then none else some (m + 1))))

/-- Modelled from the spec (§4.4): the conditioning signals the claim
prescribes — for each edge-example id stored in `adj[n]`, for each other
endpoint `m` of that edge, one condition on `m + 1`. -/
def specConditions (ec : List Costs) (adj : List (List Nat)) (n : Nat) : List Nat :=
  List.flatten ((adj.getD n []).map (fun id =>
    (ec.getD id []).filterMap (fun cid =>
      let m := sub1u32 cid
      if m = n then none else some (m + 1))))

/-- The pass direction of `run` lines 324-326: even passes visit queue
positions `0, 1, ..., N-1`, odd passes visit `N-1, ..., 0`. -/
def passIndices (N : Nat) (loop : Nat) : List Nat :=
  if loop % 2 = 0 then List.range N else (List.range N).reverse

/-- The nodes one pass visits, in order: `n = bfs[n_id]` (line 327) for each
visited queue position. -/
def passVisits (bfs : List Nat) (loop : Nat) : List Nat :=
  (passIndices bfs.length loop).map (fun i => bfs.getD i 0)

/-- The full visiting sequence of `run` lines 323-327: `num_loops` passes
over the fixed traversal order, alternating direction. -/
def runVisits (bfs : List Nat) (num_loops : Nat) : List Nat :=
  List.flatten ((List.range num_loops).map (passVisits bfs))

/-- The prediction reset of `run` line 321: before pass 0 every entry of
`pred[0..N-1]` is set to the sentinel `K+1`. -/
def initPred (N K : Nat) : List Nat := List.replicate N (K + 1)

/-- The task configuration produced by option parsing. -/
structure TaskConfig where
  num_loops : Nat
  use_structure : Bool
  separate_learners : Bool
deriving DecidableEq, Repr

/-- The option logic of the task's one-time setup hook (lines 85-91):
`num_loops` defaults to 2 and is overridden by the option when given;
structural features default to on and are disabled by the flag;
`separate_learners` is requested by its flag; finally, when `num_loops ≤ 1`
it is floored to 1 and `separate_learners` is forced off. -/
def initializeTask (numLoopsOpt : Option Nat) (noStructureFlag sepLearnersFlag : Bool) :
    TaskConfig :=
  let nl := match numLoopsOpt with | some v => v | none => 2
  let us := ! noStructureFlag
  let sep := sepLearnersFlag
  if nl ≤ 1 then ⟨1, us, false⟩ else ⟨nl, us, sep⟩

/-- `contribCount n costs`: the number of endpoints of an edge record that
contribute a neighbor prediction when node `n` is augmented — the cost
entries whose referenced node is not `n` itself. -/
def contribCount (n : Nat) (costs : Costs) : Nat :=
  (costs.filter (fun cid => sub1u32 cid != n)).length

/-- Whether an `Except` value is an error. -/
def isErr {α : Type} : Except String α → Bool
  | Except.error _ => true
  | Except.ok _ => false

/-- Claim-side condition (C8): the record list contains a node record after
an already-seen edge record. -/
def condNodeAfterEdge (ec : List Costs) : Bool :=
  (ec.dropWhile (fun c => ! example_is_edge c)).any (fun c => ! example_is_edge c)

/-- Claim-side condition (C8): the record list contains an edge record with
zero node records seen before it — equivalently, its first record is an
edge. -/
def condEdgeFirst (ec : List Costs) : Bool :=
  match ec with
  | [] => false
  | c :: _ => example_is_edge c

/-- The number of node records (records with at most one cost entry) in the
list. -/
def numNodes (ec : List Costs) : Nat :=
  (ec.filter (fun c => ! example_is_edge c)).length

/-- The number of edge records in the list. -/
def numEdges (ec : List Costs) : Nat :=
  (ec.filter example_is_edge).length

/-- Claim-side condition (C8): some edge record references a node id
strictly greater than the episode's node count. -/
def condBadEdgeId (ec : List Costs) : Bool :=
  ec.any (fun c => example_is_edge c && c.any (edgeIdTooLarge (numNodes ec)))

/-- Invariant of the traversal state `(bfs, touched)`: the touched vector
has one slot per node, the queue is duplicate-free, holds only valid node
indices, and marks exactly the queued nodes as touched. -/
def BfsSt (N : Nat) (st : List Nat × List Bool) : Prop :=
  st.2.length = N ∧ st.1.Nodup ∧ (∀ x ∈ st.1, x < N) ∧
    (∀ m, m < N → (st.2.getD m false = true ↔ m ∈ st.1))

/-- Well-formedness of an episode's graph data as `setup` establishes it:
node count within `uint32_t` range, one adjacency row per node, and every
stored edge-example id a valid record index whose referenced ids lie in
`1..N`. -/
def GraphWF (ec : List Costs) (adj : List (List Nat)) (N : Nat) : Prop :=
  N < 2^32 ∧ adj.length = N ∧
    ∀ l ∈ adj, ∀ id ∈ l,
      id < ec.length ∧ ∀ cid ∈ ec.getD id [], 1 ≤ cid ∧ cid ≤ N

/-- Claim C1 (code bug): augmenting and then reverting a node's example
does not restore it bit-for-bit.  Concretely: a node example with one
feature in namespace 97 (`num_features = 1`, `total_sum_feat_sq = 1`), one
configured namespace pair `(97, neighbor)`, and one incident edge whose
single feature (value 2) is injected; after `add_edge_features` followed by
`del_edge_features` the example reports `num_features = 2` and
`total_sum_feat_sq = 5`: the cross-term counters added by the pair loop of
`add_edge_features` (lines 271-279) are never reversed by
`del_edge_features`. -/
theorem c1_augment_revert_not_inverse :
    (add_edge_features [(97, neighbor_namespace)] 1 1 (2^32 - 1) true [1, 1]
        [([1], []), ([2], []), ([1, 2], [⟨2, 0⟩])] [[2], [2]] 0
        ⟨(fun ns => if ns = 97 then [⟨1, 0⟩] else []),
         (fun ns => if ns = 97 then 1 else 0), [97], 1, 1⟩).map
        (fun e2 => ((del_edge_features e2).num_features,
          (del_edge_features e2).total_sum_feat_sq)) = some (2, 5) ∧
      ((2 : Nat), (5 : ℚ)) ≠ ((1 : Nat), (1 : ℚ)) := by
  constructor
  · have hinj : edgeInjections 1 1 (2^32 - 1) true [1, 1]
        [([1], []), ([2], []), ([1, 2], [⟨2, 0⟩])] [[2], [2]] 0 = some [⟨2, 0⟩] := by
      norm_num [edgeInjections, processEdgeDispatch, buildHistogram, histStep,
        add_edge_features_single_fn, derivedIndex, sub1u32, List.replicate, List.set,
        List.getD, List.mapM, List.mapM.loop]
    rw [add_edge_features, hinj]
    norm_num [Option.map, applyAugment, del_edge_features, neighbor_namespace]
  · norm_num [Prod.ext_iff]

/-- Claim C2 (code bug): the conditioning loop of `run` (lines 350-355)
reads `ec[i]` for loop positions `i = 0 .. adj[n].size()-1` instead of the
edge-example ids stored in `adj[n]`.  On the episode with three nodes
labeled 3, 1, 1 and one edge record `{1, 3}` at position 3, visiting node 2
the source adds no conditioning at all, while the spec's rule conditions on
node 0's prediction (reference `1`). -/
theorem c2_conditioning_wrong_records :
    runConditions [[3], [1], [1], [1, 3]] [[3], [], [3]] 2 = [] ∧
      specConditions [[3], [1], [1], [1, 3]] [[3], [], [3]] 2 = [1] := by
  constructor
  · decide
  · decide

/-- Claim C3 (code bug): the final confusion-matrix accumulation of `run`
(lines 365-366) reads `costs[0]` of every node unconditionally.  For a
single labeled node it increments `confusion[1][1]` exactly once, but as
soon as the episode contains an unlabeled/test node (empty cost vector) the
read is out of bounds — it does not skip the node as the claim
requires. -/
theorem c3_confusion_update_reads_unlabeled :
    updateConfusion 2 [[1]] [1] (List.replicate 9 0) =
        some [0, 0, 0, 0, 1, 0, 0, 0, 0] ∧
      updateConfusion 2 [[1], []] [1, 1] (List.replicate 9 0) = none := by
  constructor
  · decide
  · decide

/-- Claim C10: when the configured number of passes is 0 or 1, the one-time
setup hook floors `num_loops` to 1 and forces `separate_learners` off
(line 91), so a single-pass task always uses one shared model even when the
per-pass-learner option was requested. -/
theorem c10_single_pass_forces_shared_learner (nl : Nat) (h : nl ≤ 1)
    (nsf slf : Bool) :
    (initializeTask (some nl) nsf slf).num_loops = 1 ∧
      (initializeTask (some nl) nsf slf).separate_learners = false := by
  simp [initializeTask, h]

/-- Witness for C10 at the concrete input `num_loops = 0` with
`separate_learners` requested. -/
theorem c10_witness :
    (0 : Nat) ≤ 1 ∧
      (initializeTask (some 0) false true).num_loops = 1 ∧
      (initializeTask (some 0) false true).separate_learners = false :=
  ⟨by decide, c10_single_pass_forces_shared_learner 0 (by decide) false true⟩

/-- Claim C9: setup's edge-id validation (lines 181-184) rejects only ids
strictly greater than `N`; id `0` passes, and the adjacency construction
then computes `0 - 1` in 32-bit unsigned arithmetic, producing index
`2^32 - 1`, which is out of bounds for the `N`-row adjacency vector — an
undefined-behavior access.  In-bounds adjacency access holds exactly under
the unchecked precondition that every referenced id lies in `1..N`. -/
theorem c9_zero_id_underflow (N : Nat) (hN : N < 2^32)
    (adj : List (List Nat)) (i : Nat) (hadj : adj.length = N) :
    edgeIdTooLarge N 0 = false ∧
      sub1u32 0 = 2^32 - 1 ∧
      ¬ sub1u32 0 < N ∧
      adjAppend adj (sub1u32 0) i = none ∧
      (∀ cid, 1 ≤ cid → cid ≤ N → sub1u32 cid < N) := by
  have hsub : sub1u32 0 = 2^32 - 1 := by norm_num [sub1u32]
  refine ⟨by simp [edgeIdTooLarge], hsub, by omega, ?_, ?_⟩
  · rw [adjAppend, dif_neg]
    omega
  · intro cid h1 h2
    have : sub1u32 cid = cid - 1 := by
      unfold sub1u32
      omega
    omega

/-- Witness for C9 at `N = 2`, a two-row adjacency vector, edge-example id
5 and referenced id 2. -/
theorem c9_witness :
    edgeIdTooLarge 2 0 = false ∧
      adjAppend [[], []] (sub1u32 0) 5 = none ∧
      sub1u32 2 < 2 :=
  ⟨(c9_zero_id_underflow 2 (by norm_num) [[], []] 5 rfl).1,
   (c9_zero_id_underflow 2 (by norm_num) [[], []] 5 rfl).2.2.2.1,
   (c9_zero_id_underflow 2 (by norm_num) [[], []] 5 rfl).2.2.2.2 2 (by norm_num)
     (by norm_num)⟩

/-- The `macro_f` loop body when the label's row sum is zero: the
accumulator is unchanged (the label is skipped). -/
theorem macroFoldStep_of_eq (K : Nat) (cm : List Nat) (a b : ℚ) (kk : Nat)
    (h0 : trueCount K cm (kk + 1) = 0) :
    macroFoldStep K cm (a, b) kk = (a, b) := by
  simp [macroFoldStep, h0]

/-- The `macro_f` loop body when the label's row sum is nonzero: the label
is counted and its per-label F1 (as `labelF1`) is added. -/
theorem macroFoldStep_of_ne (K : Nat) (cm : List Nat) (a b : ℚ) (kk : Nat)
    (h0 : trueCount K cm (kk + 1) ≠ 0) :
    macroFoldStep K cm (a, b) kk = (a + labelF1 K cm (kk + 1), b + 1) := by
  simp only [macroFoldStep, labelF1]
  rw [if_neg h0]
  by_cases hc : (0 : ℚ) < (cm.getD (IDX K (kk + 1) (kk + 1)) 0 : ℚ)
  · rw [if_pos hc, if_pos hc]
  · rw [if_neg hc, if_neg hc, add_zero]

/-- The `macro_f` fold computed in closed form: folding the loop body over
any list of loop indices adds, to the running totals, the filtered sum of
per-label F1 scores and the count of labels with nonzero row sum. -/
theorem macroFold_eq (K : Nat) (cm : List Nat) :
    ∀ (l : List ℕ) (a b : ℚ),
      l.foldl (macroFoldStep K cm) (a, b) =
        (a + (((l.map (· + 1)).filter
            (fun k => trueCount K cm k ≠ 0)).map (labelF1 K cm)).sum,
         b + (((l.map (· + 1)).filter
            (fun k => trueCount K cm k ≠ 0)).length : ℚ)) := by
  intro l
  induction l with
  | nil => intro a b; simp
  | cons kk rest ih =>
    intro a b
    simp only [List.foldl_cons, List.map_cons, List.filter_cons]
    by_cases h0 : trueCount K cm (kk + 1) = 0
    · rw [macroFoldStep_of_eq K cm a b kk h0, ih]
      simp [h0]
    · rw [macroFoldStep_of_ne K cm a b kk h0, ih]
      have hd : (decide (trueCount K cm (kk + 1) ≠ 0)) = true := by simp [h0]
      simp only [hd, if_pos, List.map_cons, List.sum_cons, List.length_cons]
      rw [Prod.ext_iff]
      constructor
      · dsimp only
        ring
      · dsimp only
        push_cast
        ring

/-- Claim C6: `macro_f` computes the average, over labels `1..K` with
nonzero row sum `trueC`, of the per-label F1 scores — a label with zero
diagonal entry contributes 0 to the numerator but still counts in the
denominator, and a positive diagonal contributes
`2·precision·recall/(precision+recall)`; on the `K = 2` example with
`confusion[1][1] = 3`, `confusion[1][2] = 1`, `confusion[2][2] = 2`,
`confusion[2][1] = 0`, the reported loss `1 - macroF1` is `6/35`, within
`10^-3` of `0.1714`. -/
theorem c6_macro_f_correct :
    (∀ (K : Nat) (cm : List Nat), macro_f K cm = macroF1_spec K cm) ∧
      macro_f 2 [0, 0, 0, 0, 3, 1, 0, 0, 2] = 29 / 35 ∧
      |(1 - macro_f 2 [0, 0, 0, 0, 3, 1, 0, 0, 2]) - 1714 / 10000| ≤ 1 / 1000 := by
  have hgen : ∀ (K : Nat) (cm : List Nat), macro_f K cm = macroF1_spec K cm := by
    intro K cm
    have h := macroFold_eq K cm (List.range K) 0 0
    simp only [macro_f, macroF1_spec, h, zero_add]
  have hval : macro_f 2 [0, 0, 0, 0, 3, 1, 0, 0, 2] = 29 / 35 := by
    rw [hgen]
    norm_num [macroF1_spec, labelF1, trueCount, predCount, IDX,
      List.range_succ, List.filter, List.getD]
  refine ⟨hgen, hval, ?_⟩
  rw [hval]
  rw [abs_le]
  norm_num

/-- Reading a list back through `getD` at positions `0 .. length-1`
reproduces the list. -/
theorem map_getD_range (l : List Nat) :
    (List.range l.length).map (fun i => l.getD i 0) = l := by
  induction l with
  | nil => simp
  | cons a t ih =>
    rw [List.length_cons, List.range_succ_eq_map, List.map_cons, List.map_map]
    simp only [Function.comp_def, List.getD_cons_zero, List.getD_cons_succ]
    rw [ih]

/-- Claim C7: the inference loop of `run` performs `num_loops` passes over
the fixed traversal order; before pass 0 every prediction is reset to the
sentinel `K+1` (line 321); pass `i` visits the order forwards when `i` is
even and in exact reverse when `i` is odd (lines 324-326); and within a
pass every node is visited exactly once (no skips, no repeats). -/
theorem c7_pass_alternation (bfs : List Nat) (N K num_loops : Nat)
    (hlen : bfs.length = N) (hperm : bfs.Perm (List.range N)) :
    (∀ m ∈ initPred N K, m = K + 1) ∧
      (runVisits bfs num_loops).length = num_loops * N ∧
      (∀ loop, loop % 2 = 0 → passVisits bfs loop = bfs) ∧
      (∀ loop, loop % 2 = 1 → passVisits bfs loop = bfs.reverse) ∧
      (∀ loop n, n < N → (passVisits bfs loop).count n = 1) := by
  have heven : ∀ loop, loop % 2 = 0 → passVisits bfs loop = bfs := by
    intro loop h
    rw [passVisits, passIndices, if_pos h]
    exact map_getD_range bfs
  have hodd : ∀ loop, loop % 2 = 1 → passVisits bfs loop = bfs.reverse := by
    intro loop h
    rw [passVisits, passIndices, if_neg (by omega), List.map_reverse,
      map_getD_range bfs]
  have hcount : ∀ loop n, n < N → (passVisits bfs loop).count n = 1 := by
    intro loop n hn
    have hb : bfs.count n = 1 := by
      rw [hperm.count_eq]
      exact List.count_eq_one_of_mem (List.nodup_range N) (List.mem_range.mpr hn)
    rcases Nat.mod_two_eq_zero_or_one loop with h | h
    · rw [heven loop h]; exact hb
    · rw [hodd loop h, List.count_reverse]; exact hb
  refine ⟨?_, ?_, heven, hodd, hcount⟩
  · intro m hm
    exact List.eq_of_mem_replicate hm
  · have hple : ∀ loop, (passVisits bfs loop).length = N := by
      intro loop
      rcases Nat.mod_two_eq_zero_or_one loop with h | h
      · rw [heven loop h, hlen]
      · rw [hodd loop h, List.length_reverse, hlen]
    simp only [runVisits, List.length_flatten, List.map_map]
    have : (List.range num_loops).map (List.length ∘ passVisits bfs) =
        List.replicate num_loops N := by
      refine List.eq_replicate_iff.mpr ⟨by simp, ?_⟩
      intro b hb
      rcases List.mem_map.mp hb with ⟨loop, _, hl⟩
      rw [← hl]
      exact hple loop
    rw [this, List.sum_replicate, smul_eq_mul]

/-- Witness for C7 at the concrete traversal order `[1, 0]` (`N = 2`,
`K = 3`, `num_loops = 2`). -/
theorem c7_witness :
    passVisits [1, 0] 0 = [1, 0] ∧
      passVisits [1, 0] 1 = [1, 0].reverse ∧
      (runVisits [1, 0] 2).length = 2 * 2 ∧
      (passVisits [1, 0] 1).count 0 = 1 :=
  ⟨(c7_pass_alternation [1, 0] 2 3 2 rfl (by decide)).2.2.1 0 rfl,
   (c7_pass_alternation [1, 0] 2 3 2 rfl (by decide)).2.2.2.1 1 rfl,
   (c7_pass_alternation [1, 0] 2 3 2 rfl (by decide)).2.1,
   (c7_pass_alternation [1, 0] 2 3 2 rfl (by decide)).2.2.2.2 1 0 (by decide)⟩

/-- Reading any list back through `getD` at positions `0 .. length-1`
reproduces the list. -/
theorem map_getD_range2 {α : Type} (l : List α) (d : α) :
    (List.range l.length).map (fun i => l.getD i d) = l := by
  induction l with
  | nil => simp
  | cons a t ih =>
    rw [List.length_cons, List.range_succ_eq_map, List.map_cons, List.map_map]
    simp only [Function.comp_def, List.getD_cons_zero, List.getD_cons_succ]
    rw [ih]

/-- The histogram fold of `add_edge_features` computed in closed form:
starting from any scratch state, folding `histStep` over an edge's
endpoint ids preserves the histogram length, adds one unit of histogram
mass per contributing endpoint (one whose referenced node is not `n`),
counts exactly the contributing endpoints in `pred_total`, and leaves in
`last_pred` the bucket of the last contributing endpoint. -/
theorem histFold (K : Nat) (pred : List Nat) (n : Nat)
    (hpred : ∀ p ∈ pred, 1 ≤ p ∧ p ≤ K + 1) :
    ∀ (costs : Costs) (h0 : List ℚ) (t0 : ℚ) (l0 : Nat),
      (∀ cid ∈ costs, sub1u32 cid < pred.length) →
      h0.length = K + 1 →
      ((costs.foldl (histStep pred n) (h0, t0, l0)).1.length = K + 1 ∧
       (costs.foldl (histStep pred n) (h0, t0, l0)).1.sum
         = h0.sum + ((costs.filter (fun cid => sub1u32 cid != n)).length : ℚ) ∧
       (costs.foldl (histStep pred n) (h0, t0, l0)).2.1
         = t0 + ((costs.filter (fun cid => sub1u32 cid != n)).length : ℚ) ∧
       (costs.foldl (histStep pred n) (h0, t0, l0)).2.2
         = (costs.filter (fun cid => sub1u32 cid != n)).foldl
             (fun _ cid => pred.getD (sub1u32 cid) 0 - 1) l0) := by
  intro costs
  induction costs with
  | nil => intro h0 t0 l0 _ hlen; simp [hlen]
  | cons cid rest ih =>
    intro h0 t0 l0 hc hlen
    have hcr : ∀ c ∈ rest, sub1u32 c < pred.length := fun c hcm => hc c (List.mem_cons_of_mem _ hcm)
    by_cases hm : sub1u32 cid = n
    · have hstep : histStep pred n (h0, t0, l0) cid = (h0, t0, l0) := by
        simp [histStep, hm]
      rw [List.foldl_cons, hstep]
      have hfilter : (cid :: rest).filter (fun c => sub1u32 c != n)
          = rest.filter (fun c => sub1u32 c != n) := by
        simp [List.filter_cons, hm]
      rw [hfilter]
      exact ih h0 t0 l0 hcr hlen
    · have hmlt : sub1u32 cid < pred.length := hc cid (List.mem_cons_self _ _)
      have hb : pred.getD (sub1u32 cid) 0 - 1 < K + 1 := by
        have hmem : pred.getD (sub1u32 cid) 0 ∈ pred := by
          rw [List.getD_eq_getElem?_getD, List.getElem?_eq_getElem hmlt]
          exact List.getElem_mem _
        have := hpred _ hmem
        omega
      set b := pred.getD (sub1u32 cid) 0 - 1 with hbdef
      have hstep : histStep pred n (h0, t0, l0) cid
          = (h0.set b (h0.getD b 0 + 1), t0 + 1, b) := by
        simp only [histStep, if_neg hm]
      have hblt : b < h0.length := by omega
      have hsum : (h0.set b (h0.getD b 0 + 1)).sum = h0.sum + 1 := by
        rw [List.sum_set']
        rw [dif_pos hblt]
        rw [List.getD_eq_getElem?_getD, List.getElem?_eq_getElem hblt]
        simp
      have hfilter : (cid :: rest).filter (fun c => sub1u32 c != n)
          = cid :: rest.filter (fun c => sub1u32 c != n) := by
        simp [List.filter_cons, hm]
      rw [List.foldl_cons, hstep, hfilter]
      obtain ⟨ih1, ih2, ih3, ih4⟩ :=
        ih (h0.set b (h0.getD b 0 + 1)) (t0 + 1) b hcr (by simp [hlen])
      refine ⟨ih1, ?_, ?_, ?_⟩
      · rw [ih2, hsum, List.length_cons]
        push_cast
        ring
      · rw [ih3, List.length_cons]
        push_cast
        ring
      · rw [ih4, List.foldl_cons]

/-- `mapM` over `Option` of a function that succeeds pointwise is the
`some` of the pointwise map. -/
theorem mapM_option_some {α β : Type} (f : α → Option β) (g : α → β) :
    ∀ l : List α, (∀ a ∈ l, f a = some (g a)) → l.mapM f = some (l.map g) := by
  intro l
  induction l with
  | nil => intro _; rfl
  | cons a t ih =>
    intro h
    rw [List.mapM_cons, h a (List.mem_cons_self _ _), ih (fun b hb => h b (List.mem_cons_of_mem _ hb))]
    rfl

/-- Summing the values of a `filterMap` that drops exactly the entries
matching a condition equals summing with those entries replaced by 0. -/
theorem filterMap_if_sum {α : Type} (l : List α) (c : α → Prop) [DecidablePred c]
    (F : α → Feature) :
    (((l.filterMap (fun a => if c a then none else some (F a))).map Feature.x).sum)
      = (l.map (fun a => if c a then 0 else (F a).x)).sum := by
  induction l with
  | nil => simp
  | cons a t ih =>
    by_cases hca : c a
    · simp [List.filterMap_cons, hca, ih]
    · simp [List.filterMap_cons, hca, ih]

/-- The group injector succeeds on a stride-aligned feature and the values
it injects sum to the original value times the total histogram mass. -/
theorem groupFn_sum (K mult mask : Nat) (np : List ℚ) (fv : ℚ) (fx : Nat)
    (hal : fx % mult = 0) (hlen : np.length = K + 1) :
    ∃ L, add_edge_features_group_fn K mult mask np fv fx = some L ∧
      (L.map Feature.x).sum = fv * np.sum := by
  have hdvd : fx / mult * mult = fx := Nat.div_mul_cancel (Nat.dvd_of_mod_eq_zero hal)
  refine ⟨_, by rw [add_edge_features_group_fn, if_neg (by omega)], ?_⟩
  rw [filterMap_if_sum]
  have hcongr : (List.range (K+1)).map
      (fun k => if np.getD k 0 = 0 then 0 else (Feature.mk (fv * np.getD k 0)
        (derivedIndex mult mask (fx / mult) k)).x)
      = (List.range (K+1)).map (fun k => fv * np.getD k 0) := by
    apply List.map_congr_left
    intro k _
    by_cases h : np.getD k 0 = 0
    · rw [if_pos h, h, mul_zero]
    · rw [if_neg h]
  rw [hcongr, ← hlen]
  have : ((List.range np.length).map (fun k => fv * np.getD k 0)).sum
      = fv * ((List.range np.length).map (fun k => np.getD k 0)).sum := by
    rw [← List.sum_map_mul_left]
  rw [this, map_getD_range2]

/-- Folding the group injector over an edge's features accumulates, in
total injected value, the sum of the original values times the histogram
mass. -/
theorem groupFold_sum (K mult mask : Nat) (np : List ℚ) (hlen : np.length = K + 1) :
    ∀ (fs : List Feature), (∀ f ∈ fs, f.wi % mult = 0) →
      ∀ (acc out : List Feature),
        fs.foldlM (fun acc f =>
          (add_edge_features_group_fn K mult mask np f.x f.wi).map (acc ++ ·)) acc
            = some out →
        (out.map Feature.x).sum
          = (acc.map Feature.x).sum + ((fs.map Feature.x).sum) * np.sum := by
  intro fs
  induction fs with
  | nil =>
    intro _ acc out h
    simp only [List.foldlM_nil] at h
    cases h
    simp
  | cons f t ih =>
    intro hal acc out h
    obtain ⟨L, hL, hLsum⟩ := groupFn_sum K mult mask np f.x f.wi
      (hal f (List.mem_cons_self _ _)) hlen
    rw [List.foldlM_cons, hL] at h
    simp only [Option.map_some', Option.bind_some] at h
    have := ih (fun g hg => hal g (List.mem_cons_of_mem _ hg)) (acc ++ L) out h
    rw [this]
    simp only [List.map_append, List.sum_append, List.map_cons, List.sum_cons, hLsum]
    ring

/-- Claim C5: during augmentation of node `n`, per incident edge: with
zero contributing neighbors nothing is injected; with exactly one
contributing neighbor every edge feature is injected once, value
unchanged, at the derived bucket for that neighbor's predicted-label
bucket `pred[m] - 1`; with two or more, the injected values sum (per
source feature, hence in total) to the original value times the histogram
count, and the histogram mass `pred_total` equals the number of
contributing neighbors, so the total injected value is
`original × number_of_contributing_neighbors`. -/
theorem c5_single_vs_group_encoding (K mult mask n : Nat) (pred : List Nat) (costs : Costs)
    (edgeFeats : List Feature)
    (hpred : ∀ p ∈ pred, 1 ≤ p ∧ p ≤ K + 1)
    (hcost : ∀ cid ∈ costs, sub1u32 cid < pred.length)
    (halign : ∀ f ∈ edgeFeats, f.wi % mult = 0) :
    (contribCount n costs = 0 →
      processEdgeDispatch K mult mask true pred n costs edgeFeats = some []) ∧
    (∀ cid0, costs.filter (fun cid => sub1u32 cid != n) = [cid0] →
      processEdgeDispatch K mult mask true pred n costs edgeFeats
        = some (edgeFeats.map (fun f =>
            ⟨f.x, derivedIndex mult mask (f.wi / mult)
              (pred.getD (sub1u32 cid0) 0 - 1)⟩))) ∧
    (2 ≤ contribCount n costs →
      ∀ out, processEdgeDispatch K mult mask true pred n costs edgeFeats = some out →
        (out.map Feature.x).sum
          = ((edgeFeats.map Feature.x).sum) * (contribCount n costs : ℚ)) ∧
    ((buildHistogram K pred n costs).2.1 = (contribCount n costs : ℚ)) := by
  obtain ⟨hh1, hh2, hh3, hh4⟩ := histFold K pred n hpred costs
    (List.replicate (K+1) 0) 0 0 hcost (by simp)
  have hbh : buildHistogram K pred n costs
      = costs.foldl (histStep pred n) (List.replicate (K+1) 0, 0, 0) := rfl
  have hsum0 : (List.replicate (K+1) (0:ℚ)).sum = 0 := by simp
  have hcnt : (buildHistogram K pred n costs).2.1 = (contribCount n costs : ℚ) := by
    rw [hbh, hh3, zero_add, contribCount]
  refine ⟨?_, ?_, ?_, hcnt⟩
  · intro h0
    rw [processEdgeDispatch]
    simp only [if_true]
    rw [if_pos]
    rw [hcnt, h0]
    norm_num
  · intro cid0 hfil
    have hc1 : contribCount n costs = 1 := by rw [contribCount, hfil]; rfl
    have hlast : (buildHistogram K pred n costs).2.2
        = pred.getD (sub1u32 cid0) 0 - 1 := by
      rw [hbh, hh4, hfil]
      rfl
    rw [processEdgeDispatch]
    simp only [if_true]
    rw [if_neg (by rw [hcnt, hc1]; norm_num), if_pos (by rw [hcnt, hc1]; norm_num)]
    rw [hlast]
    apply mapM_option_some
    intro f hf
    rw [add_edge_features_single_fn]
    rw [if_neg]
    · norm_num [Int.floor_natCast]
    · rw [Nat.div_mul_cancel (Nat.dvd_of_mod_eq_zero (halign f hf))]
      exact fun h => h rfl
  · intro h2 out hout
    rw [processEdgeDispatch] at hout
    simp only [if_true] at hout
    rw [if_neg (by rw [hcnt]; exact_mod_cast by omega), if_neg (by rw [hcnt]; exact_mod_cast by omega)] at hout
    have hnp : (buildHistogram K pred n costs).1.sum = (contribCount n costs : ℚ) := by
      rw [hbh, hh2, hsum0, zero_add, contribCount]
    have hnplen : (buildHistogram K pred n costs).1.length = K + 1 := by
      rw [hbh]; exact hh1
    have := groupFold_sum K mult mask (buildHistogram K pred n costs).1 hnplen
      edgeFeats halign [] out hout
    rw [this, hnp]
    simp

/-- Witness for C5 at `K = 2`, `multiplier = 1`, `mask = 2^32 - 1`,
node 0, predictions `[1, 2]`, an edge `{1, 2}` (one contributing neighbor,
node 1, predicted label 2) and one edge feature of value 3. -/
theorem c5_witness :
    processEdgeDispatch 2 1 (2^32 - 1) true [1, 2] 0 [1, 2] [⟨3, 0⟩]
        = some (([(⟨3, 0⟩ : Feature)]).map (fun f =>
            (⟨f.x, derivedIndex 1 (2^32 - 1) (f.wi / 1)
              ([1, 2].getD (sub1u32 2) 0 - 1)⟩ : Feature))) ∧
      (buildHistogram 2 [1, 2] 0 [1, 2]).2.1 = (contribCount 0 [1, 2] : ℚ) :=
  ⟨(c5_single_vs_group_encoding 2 1 (2^32 - 1) 0 [1, 2] [1, 2] [⟨3, 0⟩]
      (by decide) (by decide) (by decide)).2.1 2 (by decide),
   (c5_single_vs_group_encoding 2 1 (2^32 - 1) 0 [1, 2] [1, 2] [⟨3, 0⟩]
      (by decide) (by decide) (by decide)).2.2.2⟩

/-- Adding an untouched valid node to the queue and marking it touched
preserves the traversal-state invariant. -/
theorem bfsSt_add (N : Nat) (bfs : List Nat) (touched : List Bool) (m : Nat)
    (h : BfsSt N (bfs, touched)) (hm : m < N) (hmem : m ∉ bfs) :
    BfsSt N (bfs ++ [m], touched.set m true) := by
  obtain ⟨h1, h2, h3, h4⟩ := h
  refine ⟨by simpa using h1, ?_, ?_, ?_⟩
  · exact List.Nodup.append h2 (List.nodup_singleton m)
      (by intro x hx hx2; simp at hx2; subst hx2; exact hmem hx)
  · intro x hx
    rcases List.mem_append.mp hx with hx | hx
    · exact h3 x hx
    · simp at hx; omega
  · intro m2 hm2
    by_cases he : m = m2
    · subst he
      constructor
      · intro _; simp
      · intro _
        rw [List.getD_eq_getElem?_getD, List.getElem?_set]
        simp [h1, hm]
    · have : (touched.set m true).getD m2 false = touched.getD m2 false := by
        rw [List.getD_eq_getElem?_getD, List.getElem?_set, if_neg he,
          ← List.getD_eq_getElem?_getD]
      rw [this]
      rw [h4 m2 hm2]
      simp [List.mem_append]
      intro hm2m
      exact absurd hm2m.symm he

/-- One touch attempt succeeds on a valid referenced id and preserves the
invariant, extending the queue by at most the touched node. -/
theorem touchCost_some (N : Nat) (st : List Nat × List Bool) (cid : Nat)
    (h : BfsSt N st) (h1 : 1 ≤ cid) (h2 : cid ≤ N) (hN : N < 2^32) :
    ∃ st2, touchCost st cid = some st2 ∧ BfsSt N st2 ∧ ∃ t, st2.1 = st.1 ++ t := by
  obtain ⟨bfs, touched⟩ := st
  have hm : sub1u32 cid = cid - 1 := by unfold sub1u32; omega
  have hmlt : sub1u32 cid < N := by omega
  have hlen : touched.length = N := h.1
  have hcond : sub1u32 cid < ((bfs, touched) : List Nat × List Bool).2.length := by
    simpa [hlen] using hmlt
  rw [touchCost]
  rw [dif_pos hcond]
  by_cases ht : touched.get ⟨sub1u32 cid, by simpa [hlen] using hmlt⟩
  · rw [if_pos ht]
    exact ⟨(bfs, touched), rfl, h, [], by simp⟩
  · rw [if_neg ht]
    have hmem : sub1u32 cid ∉ bfs := by
      intro hmm
      have := (h.2.2.2 (sub1u32 cid) hmlt).mpr hmm
      rw [List.getD_eq_getElem?_getD, List.getElem?_eq_getElem (by omega)] at this
      simp only [Option.getD_some] at this
      rw [List.get_eq_getElem] at ht
      exact ht this
    exact ⟨(bfs ++ [sub1u32 cid], touched.set (sub1u32 cid) true), rfl,
      bfsSt_add N bfs touched (sub1u32 cid) h hmlt hmem, [sub1u32 cid], rfl⟩

/-- Touching every endpoint of one edge record succeeds and preserves the
invariant, extending the queue. -/
theorem foldCosts_some (N : Nat) (hN : N < 2^32) :
    ∀ (costs : Costs) (st : List Nat × List Bool),
      BfsSt N st → (∀ cid ∈ costs, 1 ≤ cid ∧ cid ≤ N) →
      ∃ st2, costs.foldlM touchCost st = some st2 ∧ BfsSt N st2 ∧
        ∃ t, st2.1 = st.1 ++ t := by
  intro costs
  induction costs with
  | nil =>
    intro st h _
    exact ⟨st, rfl, h, [], by simp⟩
  | cons cid rest ih =>
    intro st h hc
    obtain ⟨st2, he, h2, t1, ht1⟩ := touchCost_some N st cid h
      (hc cid (List.mem_cons_self _ _)).1 (hc cid (List.mem_cons_self _ _)).2 hN
    obtain ⟨st3, he3, h3, t2, ht2⟩ := ih st2 h2
      (fun c hcm => hc c (List.mem_cons_of_mem _ hcm))
    refine ⟨st3, ?_, h3, t1 ++ t2, by rw [ht2, ht1, List.append_assoc]⟩
    rw [List.foldlM_cons, he]
    simpa using he3

/-- Expanding one queued node over its incident edges succeeds on a
well-formed graph and preserves the invariant, extending the queue. -/
theorem expandNode_some (ec : List Costs) (adj : List (List Nat)) (N : Nat)
    (hwf : GraphWF ec adj N) (st : List Nat × List Bool) (hst : BfsSt N st)
    (n : Nat) (hn : n < N) :
    ∃ st2, expandNode ec adj st n = some st2 ∧ BfsSt N st2 ∧
      ∃ t, st2.1 = st.1 ++ t := by
  obtain ⟨hN, hadj, hids⟩ := hwf
  have hn' : n < adj.length := by omega
  have hget : adj.get? n = some (adj.getD n []) := by
    rw [List.get?_eq_getElem?, List.getElem?_eq_getElem hn']
    rw [List.getD_eq_getElem?_getD, List.getElem?_eq_getElem hn']
    rfl
  have hmem : adj.getD n [] ∈ adj := by
    rw [List.getD_eq_getElem?_getD, List.getElem?_eq_getElem hn']
    exact List.getElem_mem _
  rw [expandNode]
  rw [hget]
  have main : ∀ (edges : List Nat),
      (∀ id ∈ edges, id < ec.length ∧ ∀ cid ∈ ec.getD id [], 1 ≤ cid ∧ cid ≤ N) →
      ∀ st, BfsSt N st →
      ∃ st2, (edges.foldlM (fun s id => do
          let costs ← ec.get? id
          costs.foldlM touchCost s) st) = some st2 ∧ BfsSt N st2 ∧
        ∃ t, st2.1 = st.1 ++ t := by
    intro edges
    induction edges with
    | nil => intro _ st h; exact ⟨st, rfl, h, [], by simp⟩
    | cons id rest ih =>
      intro hall st h
      obtain ⟨hid, hcids⟩ := hall id (List.mem_cons_self _ _)
      have hgete : ec.get? id = some (ec.getD id []) := by
        rw [List.get?_eq_getElem?, List.getElem?_eq_getElem hid]
        rw [List.getD_eq_getElem?_getD, List.getElem?_eq_getElem hid]
        rfl
      obtain ⟨st2, he2, h2, t1, ht1⟩ := foldCosts_some N hN (ec.getD id []) st h hcids
      obtain ⟨st3, he3, h3, t2, ht2⟩ := ih
        (fun i him => hall i (List.mem_cons_of_mem _ him)) st2 h2
      refine ⟨st3, ?_, h3, t1 ++ t2, by rw [ht2, ht1, List.append_assoc]⟩
      rw [List.foldlM_cons, hgete]
      simp only [Option.bind_eq_bind, Option.some_bind]
      rw [he2]
      simpa using he3
  exact main (adj.getD n []) (hids _ hmem) st hst

/-- Appending on the right preserves the head of a nonempty list. -/
theorem head?_append_some {l t : List Nat} {a : Nat} (h : l.head? = some a) :
    (l ++ t).head? = some a := by
  cases l with
  | nil => cases h
  | cons b l2 => simpa using h

/-- Under the invariant the queue never exceeds `N` entries. -/
theorem bfsSt_length_le (N : Nat) (st : List Nat × List Bool) (h : BfsSt N st) :
    st.1.length ≤ N := by
  have hsub : st.1 ⊆ List.range N := fun x hx => List.mem_range.mpr (h.2.2.1 x hx)
  have := (h.2.1.subperm hsub).length_le
  simpa using this

/-- The traversal loop, given enough fuel, terminates from any invariant
state and returns a duplicate-free queue of all `N` node indices that
still starts with the original seed. -/
theorem bfsLoop_ok (ec : List Costs) (adj : List (List Nat)) (N : Nat)
    (hwf : GraphWF ec adj N) :
    ∀ (fuel : Nat) (bfs : List Nat) (touched : List Bool) (i : Nat),
      BfsSt N (bfs, touched) → i ≤ bfs.length → bfs.head? = some 0 →
      2*N + 1 ≤ fuel + bfs.length + i →
      ∃ out, bfsLoop ec adj N fuel bfs touched i = some out ∧
        out.length = N ∧ out.Nodup ∧ (∀ x ∈ out, x < N) ∧ out.head? = some 0 := by
  intro fuel
  induction fuel with
  | zero =>
    intro bfs touched i h hi hh hf
    have hlen : bfs.length ≤ N := bfsSt_length_le N (bfs, touched) h
    omega
  | succ fuel ih =>
    intro bfs touched i h hi hh hf
    rw [bfsLoop]
    by_cases hlt : bfs.length < N
    · rw [if_pos hlt]
      by_cases hilt : i < bfs.length
      · rw [dif_pos hilt]
        have hnode : bfs.get ⟨i, hilt⟩ ∈ bfs := List.get_mem bfs i hilt
        have hnlt : bfs.get ⟨i, hilt⟩ < N := h.2.2.1 _ hnode
        obtain ⟨st2, he, h2, t, ht⟩ :=
          expandNode_some ec adj N hwf (bfs, touched) h _ hnlt
        obtain ⟨bfs2, touched2⟩ := st2
        rw [he]
        have htb : bfs2 = bfs ++ t := ht
        have hh2 : bfs2.head? = some 0 := by rw [htb]; exact head?_append_some hh
        have hlen2 : bfs.length ≤ bfs2.length := by rw [htb]; simp
        exact ih bfs2 touched2 (i+1) h2 (by omega) hh2 (by omega)
      · rw [dif_neg hilt]
        cases hfind : (List.range N).find? (fun m => ! touched.getD m false) with
        | none =>
          exfalso
          rw [List.find?_eq_none] at hfind
          have hall : ∀ m, m < N → m ∈ bfs := by
            intro m hm
            apply (h.2.2.2 m hm).mp
            have := hfind m (List.mem_range.mpr hm)
            simpa using this
          have hsub : List.range N ⊆ bfs := fun m hm => hall m (List.mem_range.mp hm)
          have hge : N ≤ bfs.length := by
            have := ((List.nodup_range N).subperm hsub).length_le
            simpa using this
          omega
        | some m =>
          have hp := List.find?_some hfind
          have hmN : m < N := List.mem_range.mp (List.mem_of_find?_eq_some hfind)
          have hpf : touched.getD m false = false := by simpa using hp
          have hnm : m ∉ bfs := by
            intro hmm
            rw [(h.2.2.2 m hmN).mpr hmm] at hpf
            cases hpf
          have h2 := bfsSt_add N bfs touched m h hmN hnm
          exact ih (bfs ++ [m]) (touched.set m true) i h2
            (by simp; omega) (head?_append_some hh) (by simp; omega)
    · rw [if_neg hlt]
      have hlen : bfs.length ≤ N := bfsSt_length_le N (bfs, touched) h
      exact ⟨bfs, rfl, by omega, h.2.1, h.2.2.1, hh⟩

/-- `run_bfs` on a well-formed episode with at least one node succeeds and
returns a duplicate-free list of all `N` node indices starting at the
seed node 0. -/
theorem run_bfs_complete (ec : List Costs) (adj : List (List Nat)) (N : Nat)
    (hN : 1 ≤ N) (hwf : GraphWF ec adj N) :
    ∃ out, run_bfs ec adj N = some out ∧ out.length = N ∧ out.Nodup ∧
      (∀ x ∈ out, x < N) ∧ out.head? = some 0 := by
  have hst0 : BfsSt N ([0], (List.replicate N false).set 0 true) := by
    refine ⟨by simp, by simp, ?_, ?_⟩
    · intro x hx; simp at hx; omega
    · intro m hm
      by_cases h0 : m = 0
      · subst h0
        simp only [List.getD_eq_getElem?_getD, List.getElem?_set]
        simp [hm]
      · simp only [List.getD_eq_getElem?_getD, List.getElem?_set,
          List.getElem?_replicate, if_pos hm]
        rw [if_neg (fun he => h0 he.symm)]
        simp [h0]
  obtain ⟨out, hout, hlen, hnd, hbd, hhd⟩ := bfsLoop_ok ec adj N hwf (2*N + 1)
    [0] ((List.replicate N false).set 0 true) 0 hst0 (by simp) rfl (by omega)
  have hrun : run_bfs ec adj N = some out := by
    rw [run_bfs, if_neg (by omega)]
    exact hout
  exact ⟨out, hrun, hlen, hnd, hbd, hhd⟩

/-- Claim C4: on any well-formed episode with `N ≥ 1` nodes (connected or
not), `run_bfs` produces an order that is a permutation of `0..N-1` —
every node index exactly once — and is seeded at node 0; the embedded
loop expands queued nodes breadth-first over their incident hyperedges and
re-seeds the lowest-indexed untouched node whenever the frontier
exhausts. -/
theorem c4_traversal_permutation (ec : List Costs) (adj : List (List Nat)) (N : Nat)
    (hN : 1 ≤ N) (hwf : GraphWF ec adj N) :
    (run_bfs ec adj N).isSome = true ∧
      ∀ out, run_bfs ec adj N = some out →
        out.Perm (List.range N) ∧ out.head? = some 0 := by
  obtain ⟨out, hrun, hlen, hnd, hbd, hhd⟩ := run_bfs_complete ec adj N hN hwf
  have hperm : out.Perm (List.range N) := by
    have hsub : out ⊆ List.range N := fun x hx => List.mem_range.mpr (hbd x hx)
    apply (hnd.subperm hsub).perm_of_length_le
    simp [hlen]
  refine ⟨by rw [hrun]; rfl, ?_⟩
  intro out2 hout2
  rw [hrun] at hout2
  cases hout2
  exact ⟨hperm, hhd⟩

/-- Witness for C4 on the two-node episode with one edge `{1, 2}`. -/
theorem c4_witness :
    (run_bfs [[1], [2], [1, 2]] [[2], [2]] 2).isSome = true ∧
      ([0, 1].Perm (List.range 2) ∧ ([0, 1] : List Nat).head? = some 0) :=
  ⟨(c4_traversal_permutation [[1], [2], [1, 2]] [[2], [2]] 2 (by norm_num)
      (by refine ⟨by norm_num, rfl, ?_⟩; decide)).1,
   (c4_traversal_permutation [[1], [2], [1, 2]] [[2], [2]] 2 (by norm_num)
      (by refine ⟨by norm_num, rfl, ?_⟩; decide)).2 [0, 1] (by decide)⟩

/-- The node-after-edge condition with an edge record at the head reduces
to: some later record is a node. -/
theorem condNAE_cons_edge (c : Costs) (rest : List Costs)
    (hc : example_is_edge c = true) :
    condNodeAfterEdge (c :: rest) = rest.any (fun d => ! example_is_edge d) := by
  rw [condNodeAfterEdge, List.dropWhile_cons]
  simp [hc]

/-- The node-after-edge condition is unchanged by a node record at the
head. -/
theorem condNAE_cons_node (c : Costs) (rest : List Costs)
    (hc : ¬ example_is_edge c = true) :
    condNodeAfterEdge (c :: rest) = condNodeAfterEdge rest := by
  rw [condNodeAfterEdge, condNodeAfterEdge, List.dropWhile_cons]
  simp [hc]

/-- The record scan on an all-edge list succeeds, counting every record as
an edge. -/
theorem scan_all_edges (ec : List Costs)
    (hall : ∀ c ∈ ec, example_is_edge c = true) :
    ∀ n e : Nat, scanRecords ec n e = Except.ok (n, e + ec.length) := by
  induction ec with
  | nil => intro n e; simp [scanRecords]
  | cons c rest ih =>
    intro n e
    rw [scanRecords, if_pos (hall c (List.mem_cons_self _ _))]
    rw [ih (fun d hd => hall d (List.mem_cons_of_mem _ hd)) n (e+1)]
    have : e + 1 + rest.length = e + (c :: rest).length := by simp; omega
    rw [this]

/-- The record scan fails once an edge has been seen (`e > 0`) and a node
record remains: line 167's fatal error. -/
theorem scan_err_pos (ec : List Costs) :
    ∀ n e : Nat, 0 < e → (∃ c ∈ ec, ¬ example_is_edge c = true) →
      isErr (scanRecords ec n e) = true := by
  induction ec with
  | nil =>
    intro n e _ h
    obtain ⟨c, hc, _⟩ := h
    cases hc
  | cons c rest ih =>
    intro n e he h
    rw [scanRecords]
    by_cases hc : example_is_edge c = true
    · rw [if_pos hc]
      obtain ⟨d, hd, hde⟩ := h
      rcases List.mem_cons.mp hd with hd0 | hdr
      · subst hd0; exact absurd hc hde
      · exact ih n (e+1) (by omega) ⟨d, hdr, hde⟩
    · rw [if_neg hc, if_pos he]
      rfl

/-- When no node record follows an edge record, the scan succeeds and
returns the node and edge counts. -/
theorem scan_ok_shape (ec : List Costs) (h1 : condNodeAfterEdge ec = false) :
    ∀ n : Nat, scanRecords ec n 0 = Except.ok (n + numNodes ec, numEdges ec) := by
  induction ec with
  | nil => intro n; simp [scanRecords, numNodes, numEdges]
  | cons c rest ih =>
    intro n
    by_cases hc : example_is_edge c = true
    · rw [condNAE_cons_edge c rest hc] at h1
      have hrest : ∀ d ∈ rest, example_is_edge d = true := by
        intro d hd
        have := List.any_eq_false.mp h1 d hd
        simpa using this
      rw [scanRecords, if_pos hc, scan_all_edges rest hrest n 1]
      have hnn : numNodes (c :: rest) = 0 := by
        rw [numNodes, List.filter_cons]
        simp only [hc, Bool.not_true]
        rw [if_neg (by simp)]
        rw [List.filter_eq_nil_iff.mpr (by intro d hd; simp [hrest d hd])]
        rfl
      have hne : numEdges (c :: rest) = 1 + rest.length := by
        rw [numEdges, List.filter_cons, if_pos hc]
        rw [List.filter_eq_self.mpr hrest]
        simp [Nat.add_comm]
      rw [hnn, hne]
      have : n + 0 = n := by omega
      rw [this]
    · rw [condNAE_cons_node c rest hc] at h1
      rw [scanRecords, if_neg hc, if_neg (by omega)]
      rw [ih h1 (n+1)]
      have hnn : numNodes (c :: rest) = numNodes rest + 1 := by
        rw [numNodes, numNodes, List.filter_cons]
        simp [hc]
      have hne : numEdges (c :: rest) = numEdges rest := by
        rw [numEdges, numEdges, List.filter_cons]
        simp [hc]
      rw [hnn, hne]
      have : n + 1 + numNodes rest = n + (numNodes rest + 1) := by omega
      rw [this]

/-- When a node record follows an edge record, the scan raises the fatal
error. -/
theorem scan_err_cond (ec : List Costs) (h1 : condNodeAfterEdge ec = true) :
    ∀ n : Nat, isErr (scanRecords ec n 0) = true := by
  induction ec with
  | nil => intro n; rw [condNodeAfterEdge] at h1; simp at h1
  | cons c rest ih =>
    intro n
    by_cases hc : example_is_edge c = true
    · rw [condNAE_cons_edge c rest hc] at h1
      rw [scanRecords, if_pos hc]
      obtain ⟨d, hd, hde⟩ := List.any_eq_true.mp h1
      exact scan_err_pos rest n 1 (by omega) ⟨d, hd, by simpa using hde⟩
    · rw [condNAE_cons_node c rest hc] at h1
      rw [scanRecords, if_neg hc, if_neg (by omega)]
      exact ih h1 (n+1)

/-- `getD` at an in-bounds index is the element. -/
theorem getD_eq_getElem_of_lt {α : Type} (l : List α) (d : α) (i : Nat)
    (h : i < l.length) : l.getD i d = l[i] := by
  rw [List.getD_eq_getElem?_getD, List.getElem?_eq_getElem h]
  rfl

/-- Membership in the tail of `range n` dropped at `m`: exactly the
indices `m ≤ i < n`. -/
theorem mem_drop_range (n m i : Nat) :
    i ∈ (List.range n).drop m ↔ m ≤ i ∧ i < n := by
  constructor
  · intro hmem
    obtain ⟨j, hj, hji⟩ := List.mem_iff_getElem.mp hmem
    have hjlen : j < n - m := by simpa using hj
    rw [List.getElem_drop] at hji
    rw [List.getElem_range] at hji
    omega
  · intro ⟨hmi, hin⟩
    apply List.mem_iff_getElem.mpr
    refine ⟨i - m, by simpa using by omega, ?_⟩
    rw [List.getElem_drop, List.getElem_range]
    omega

/-- When no node follows an edge, the records split by position: the first
`numNodes` records are nodes and the rest are edges. -/
theorem shape_of_no_nae (ec : List Costs) (h1 : condNodeAfterEdge ec = false) :
    (∀ i, i < numNodes ec → ¬ example_is_edge (ec.getD i []) = true) ∧
      (∀ i, numNodes ec ≤ i → i < ec.length →
        example_is_edge (ec.getD i []) = true) := by
  have hsplit : ec.takeWhile (fun c => ! example_is_edge c)
      ++ ec.dropWhile (fun c => ! example_is_edge c) = ec :=
    List.takeWhile_append_dropWhile _ ec
  have htw : ∀ x ∈ ec.takeWhile (fun c => ! example_is_edge c),
      ¬ example_is_edge x = true := by
    intro x hx
    have := List.mem_takeWhile_imp hx
    simpa using this
  have hdw : ∀ x ∈ ec.dropWhile (fun c => ! example_is_edge c),
      example_is_edge x = true := by
    intro x hx
    rw [condNodeAfterEdge] at h1
    have := List.any_eq_false.mp h1 x hx
    simpa using this
  have hlensum : (ec.takeWhile (fun c => ! example_is_edge c)).length
      + (ec.dropWhile (fun c => ! example_is_edge c)).length = ec.length := by
    have := congrArg List.length hsplit
    rw [List.length_append] at this
    exact this
  have hnn : numNodes ec = (ec.takeWhile (fun c => ! example_is_edge c)).length := by
    rw [numNodes]
    conv_lhs => rw [← hsplit]
    rw [List.filter_append]
    rw [List.filter_eq_self.mpr (by intro a ha; simpa using htw a ha)]
    rw [List.filter_eq_nil_iff.mpr (by intro a ha; simpa using hdw a ha)]
    simp
  constructor
  · intro i hi
    rw [hnn] at hi
    have hil : i < ec.length := by omega
    have hq : ec[i]? = (ec.takeWhile (fun c => ! example_is_edge c))[i]? := by
      conv_lhs => rw [← hsplit]
      exact List.getElem?_append_left hi
    rw [List.getD_eq_getElem?_getD, hq, List.getElem?_eq_getElem hi]
    exact htw _ (List.getElem_mem hi)
  · intro i hNi hil
    rw [hnn] at hNi
    have hq : ec[i]? = (ec.dropWhile (fun c => ! example_is_edge c))[i
        - (ec.takeWhile (fun c => ! example_is_edge c)).length]? := by
      conv_lhs => rw [← hsplit]
      exact List.getElem?_append_right hNi
    have hjl : i - (ec.takeWhile (fun c => ! example_is_edge c)).length
        < (ec.dropWhile (fun c => ! example_is_edge c)).length := by omega
    rw [List.getD_eq_getElem?_getD, hq, List.getElem?_eq_getElem hjl]
    exact hdw _ (List.getElem_mem hjl)

/-- Binding a successful `Except` runs the continuation. -/
theorem except_bind_ok {α β : Type} (a : α) (f : α → Except String β) :
    ((Except.ok a : Except String α) >>= f) = f a := rfl

/-- Binding a failed `Except` propagates the error. -/
theorem except_bind_err {α β : Type} (msg : String) (f : α → Except String β) :
    ((Except.error msg : Except String α) >>= f) = Except.error msg := rfl

/-- An in-bounds adjacency append succeeds, preserves the row count, and
introduces only the appended edge-example id. -/
theorem adjAppend_ok (adj : List (List Nat)) (nn i : Nat) (hnn : nn < adj.length) :
    ∃ a, adjAppend adj nn i = some a ∧ a.length = adj.length ∧
      ∀ l ∈ a, ∀ id ∈ l, (∃ l0 ∈ adj, id ∈ l0) ∨ id = i := by
  rw [adjAppend, dif_pos hnn]
  refine ⟨_, rfl, by simp, ?_⟩
  intro l hl id hid
  rcases List.mem_or_eq_of_mem_set hl with hmem | heq
  · exact Or.inl ⟨l, hmem, hid⟩
  · subst heq
    by_cases hlast : (adj.get ⟨nn, hnn⟩).getLast? = some i
    · rw [if_pos hlast] at hid
      exact Or.inl ⟨adj.get ⟨nn, hnn⟩, List.get_mem adj nn hnn, hid⟩
    · rw [if_neg hlast] at hid
      rcases List.mem_append.mp hid with hid | hid
      · exact Or.inl ⟨adj.get ⟨nn, hnn⟩, List.get_mem adj nn hnn, hid⟩
      · simp at hid
        exact Or.inr hid

/-- Processing one edge whose referenced ids all lie in `1..N` succeeds,
preserves the row count, and introduces only that edge's example id. -/
theorem processOneEdge_ok (N : Nat) (hN : N < 2^32) (c : Costs) (i : Nat)
    (adj : List (List Nat)) (hadj : adj.length = N)
    (hc : ∀ cid ∈ c, 1 ≤ cid ∧ cid ≤ N) :
    ∃ a, processOneEdge N c i adj = Except.ok a ∧ a.length = N ∧
      ∀ l ∈ a, ∀ id ∈ l, (∃ l0 ∈ adj, id ∈ l0) ∨ id = i := by
  rw [processOneEdge, if_neg]
  · have main : ∀ (c2 : Costs), (∀ cid ∈ c2, 1 ≤ cid ∧ cid ≤ N) →
        ∀ (adj2 : List (List Nat)), adj2.length = N →
        (∀ l ∈ adj2, ∀ id ∈ l, (∃ l0 ∈ adj, id ∈ l0) ∨ id = i) →
        ∃ a, (c2.foldlM (fun a cid =>
            match adjAppend a (sub1u32 cid) i with
            | some a2 => Except.ok a2
            | none => Except.error
                "undefined behavior: adjacency index out of bounds") adj2
              : Except String (List (List Nat))) = Except.ok a ∧
          a.length = N ∧
          ∀ l ∈ a, ∀ id ∈ l, (∃ l0 ∈ adj, id ∈ l0) ∨ id = i := by
      intro c2
      induction c2 with
      | nil =>
        intro _ adj2 hlen hq
        exact ⟨adj2, rfl, hlen, hq⟩
      | cons cid rest ih =>
        intro hc2 adj2 hlen hq
        have hcid := hc2 cid (List.mem_cons_self _ _)
        have hnn : sub1u32 cid < adj2.length := by
          rw [hlen]
          unfold sub1u32
          omega
        obtain ⟨a2, ha2, hlen2, hq2⟩ := adjAppend_ok adj2 (sub1u32 cid) i hnn
        have hq2' : ∀ l ∈ a2, ∀ id ∈ l, (∃ l0 ∈ adj, id ∈ l0) ∨ id = i := by
          intro l hl id hid
          rcases hq2 l hl id hid with ⟨l0, hl0, hidl0⟩ | heq
          · exact hq l0 hl0 id hidl0
          · exact Or.inr heq
        obtain ⟨a3, ha3, hlen3, hq3⟩ := ih
          (fun d hd => hc2 d (List.mem_cons_of_mem _ hd)) a2 (by omega) hq2'
        refine ⟨a3, ?_, hlen3, hq3⟩
        rw [List.foldlM_cons, ha2]
        simpa using ha3
    exact main c hc adj hadj (fun l hl id hid => Or.inl ⟨l, hl, hid⟩)
  · rw [List.any_eq_true]
    rintro ⟨cid, hcid, hbig⟩
    rw [edgeIdTooLarge] at hbig
    have := hc cid hcid
    simp at hbig
    omega

/-- Processing an edge that references an id above `N` raises the fatal
validation error. -/
theorem processOneEdge_err (N : Nat) (c : Costs) (i : Nat)
    (adj : List (List Nat)) (hbad : ∃ cid ∈ c, N < cid) :
    isErr (processOneEdge N c i adj) = true := by
  rw [processOneEdge, if_pos]
  · rfl
  · rw [List.any_eq_true]
    obtain ⟨cid, hcid, hlt⟩ := hbad
    exact ⟨cid, hcid, by rw [edgeIdTooLarge]; simpa using hlt⟩

/-- The edge-processing fold: it succeeds — preserving the row count and
the validity of all stored example ids — exactly when every processed
record's referenced ids are at most `N`, and fails when some record
references a larger id. -/
theorem processEdgesAux (ec : List Costs) (N : Nat) (hN : N < 2^32)
    (hpos : ∀ c ∈ ec, ∀ cid ∈ c, 1 ≤ cid) :
    ∀ (idxl : List Nat) (adj : List (List Nat)), adj.length = N →
      (∀ i ∈ idxl, i < ec.length) →
      (∀ l ∈ adj, ∀ id ∈ l,
        id < ec.length ∧ ∀ cid ∈ ec.getD id [], 1 ≤ cid ∧ cid ≤ N) →
      ( ( (∀ i ∈ idxl, ∀ cid ∈ ec.getD i [], cid ≤ N) →
          ∃ a, (idxl.foldlM (fun adj i => processOneEdge N (ec.getD i []) i adj) adj
              : Except String (List (List Nat))) = Except.ok a ∧ a.length = N ∧
            (∀ l ∈ a, ∀ id ∈ l,
              id < ec.length ∧ ∀ cid ∈ ec.getD id [], 1 ≤ cid ∧ cid ≤ N) ) ∧
        ( (∃ i ∈ idxl, ∃ cid ∈ ec.getD i [], N < cid) →
          isErr (idxl.foldlM (fun adj i => processOneEdge N (ec.getD i []) i adj) adj)
            = true ) ) := by
  intro idxl
  induction idxl with
  | nil =>
    intro adj hlen _ hQ
    constructor
    · intro _
      exact ⟨adj, rfl, hlen, hQ⟩
    · rintro ⟨i, hi, _⟩
      cases hi
  | cons i rest ih =>
    intro adj hlen hbound hQ
    have hiec : i < ec.length := hbound i (List.mem_cons_self _ _)
    have hposi : ∀ cid ∈ ec.getD i [], 1 ≤ cid := by
      intro cid hcid
      refine hpos (ec.getD i []) ?_ cid hcid
      rw [getD_eq_getElem_of_lt ec [] i hiec]
      exact List.getElem_mem hiec
    constructor
    · intro hgood
      have hci : ∀ cid ∈ ec.getD i [], 1 ≤ cid ∧ cid ≤ N := by
        intro cid hcid
        exact ⟨hposi cid hcid, hgood i (List.mem_cons_self _ _) cid hcid⟩
      obtain ⟨a2, ha2, hlen2, hnew2⟩ := processOneEdge_ok N hN (ec.getD i []) i adj hlen hci
      have hQ2 : ∀ l ∈ a2, ∀ id ∈ l,
          id < ec.length ∧ ∀ cid ∈ ec.getD id [], 1 ≤ cid ∧ cid ≤ N := by
        intro l hl id hid
        rcases hnew2 l hl id hid with ⟨l0, hl0, hidl0⟩ | heq
        · exact hQ l0 hl0 id hidl0
        · subst heq
          exact ⟨hiec, hci⟩
      obtain ⟨hok, _⟩ := ih a2 hlen2 (fun j hj => hbound j (List.mem_cons_of_mem _ hj)) hQ2
      obtain ⟨a3, ha3, hlen3, hQ3⟩ := hok (fun j hj => hgood j (List.mem_cons_of_mem _ hj))
      refine ⟨a3, ?_, hlen3, hQ3⟩
      rw [List.foldlM_cons, ha2, except_bind_ok]
      exact ha3
    · rintro ⟨j, hj, cid, hcid, hbig⟩
      rcases List.mem_cons.mp hj with hj0 | hjr
      · subst hj0
        have herr := processOneEdge_err N (ec.getD j []) j adj ⟨cid, hcid, hbig⟩
        rw [List.foldlM_cons]
        cases hpe : processOneEdge N (ec.getD j []) j adj with
        | error msg => rw [except_bind_err]; rfl
        | ok a2 => rw [hpe] at herr; cases herr
      · by_cases hgoodi : ∀ cid ∈ ec.getD i [], cid ≤ N
        · have hci : ∀ cid ∈ ec.getD i [], 1 ≤ cid ∧ cid ≤ N :=
            fun d hd => ⟨hposi d hd, hgoodi d hd⟩
          obtain ⟨a2, ha2, hlen2, hnew2⟩ :=
            processOneEdge_ok N hN (ec.getD i []) i adj hlen hci
          have hQ2 : ∀ l ∈ a2, ∀ id ∈ l,
              id < ec.length ∧ ∀ cid ∈ ec.getD id [], 1 ≤ cid ∧ cid ≤ N := by
            intro l hl id hid
            rcases hnew2 l hl id hid with ⟨l0, hl0, hidl0⟩ | heq
            · exact hQ l0 hl0 id hidl0
            · subst heq
              exact ⟨hiec, hci⟩
          obtain ⟨_, herrdir⟩ := ih a2 hlen2
            (fun j2 hj2 => hbound j2 (List.mem_cons_of_mem _ hj2)) hQ2
          rw [List.foldlM_cons, ha2, except_bind_ok]
          exact herrdir ⟨j, hjr, cid, hcid, hbig⟩
        · push_neg at hgoodi
          obtain ⟨d, hd, hdn⟩ := hgoodi
          have herr := processOneEdge_err N (ec.getD i []) i adj ⟨d, hd, by omega⟩
          rw [List.foldlM_cons]
          cases hpe : processOneEdge N (ec.getD i []) i adj with
          | error msg => rw [except_bind_err]; rfl
          | ok a2 => rw [hpe] at herr; cases herr

/-- Every record is a node or an edge. -/
theorem numNodes_add_numEdges (ec : List Costs) :
    numNodes ec + numEdges ec = ec.length := by
  induction ec with
  | nil => rfl
  | cons c rest ih =>
    rw [numNodes, numEdges, List.filter_cons, List.filter_cons]
    by_cases hc : example_is_edge c = true
    · rw [if_pos hc, if_neg (by simp [hc])]
      rw [numNodes, numEdges] at ih
      simp only [List.length_cons]
      omega
    · have hcf : example_is_edge c = false := by simpa using hc
      rw [if_pos (show (! example_is_edge c) = true by simp [hcf]),
        if_neg (show ¬ example_is_edge c = true by simp [hcf])]
      rw [numNodes, numEdges] at ih
      simp only [List.length_cons]
      omega

/-- Under the nodes-then-edges shape, the bad-edge-id condition says
exactly that some record at an edge position references an id above the
node count. -/
theorem condBad_iff (ec : List Costs) (h1 : condNodeAfterEdge ec = false) :
    condBadEdgeId ec = true ↔
      ∃ i ∈ (List.range ec.length).drop (numNodes ec),
        ∃ cid ∈ ec.getD i [], numNodes ec < cid := by
  obtain ⟨hlow, hhigh⟩ := shape_of_no_nae ec h1
  rw [condBadEdgeId, List.any_eq_true]
  constructor
  · rintro ⟨c, hc, hcb⟩
    rw [Bool.and_eq_true] at hcb
    obtain ⟨hedge, hany⟩ := hcb
    rw [List.any_eq_true] at hany
    obtain ⟨cid, hcid, hbig⟩ := hany
    rw [edgeIdTooLarge] at hbig
    simp only [decide_eq_true_eq] at hbig
    obtain ⟨j, hjl, hje⟩ := List.mem_iff_getElem.mp hc
    have hjN : numNodes ec ≤ j := by
      by_contra hlt
      push_neg at hlt
      have := hlow j hlt
      rw [getD_eq_getElem_of_lt ec [] j hjl, hje] at this
      exact this hedge
    refine ⟨j, (mem_drop_range ec.length (numNodes ec) j).mpr ⟨hjN, hjl⟩, cid, ?_, hbig⟩
    rw [getD_eq_getElem_of_lt ec [] j hjl, hje]
    exact hcid
  · rintro ⟨i, hi, cid, hcid, hbig⟩
    obtain ⟨hNi, hil⟩ := (mem_drop_range ec.length (numNodes ec) i).mp hi
    refine ⟨ec.getD i [], ?_, ?_⟩
    · rw [getD_eq_getElem_of_lt ec [] i hil]
      exact List.getElem_mem hil
    · rw [Bool.and_eq_true]
      refine ⟨hhigh i hNi hil, ?_⟩
      rw [List.any_eq_true]
      exact ⟨cid, hcid, by rw [edgeIdTooLarge]; simpa using hbig⟩

/-- A nonempty list whose first record is an edge, with no node after an
edge, consists only of edges. -/
theorem condEF_true_facts (ec : List Costs) (hne : ec ≠ [])
    (h1 : condNodeAfterEdge ec = false) (h2 : condEdgeFirst ec = true) :
    numNodes ec = 0 ∧ 0 < numEdges ec := by
  obtain ⟨hlow, _⟩ := shape_of_no_nae ec h1
  have hlenpos : 0 < ec.length := List.length_pos.mpr hne
  have hn0 : numNodes ec = 0 := by
    by_contra hn
    have h0 : 0 < numNodes ec := Nat.pos_of_ne_zero hn
    have := hlow 0 h0
    cases ec with
    | nil => exact hne rfl
    | cons c rest =>
      rw [condEdgeFirst] at h2
      exact this (by simpa using h2)
  have := numNodes_add_numEdges ec
  exact ⟨hn0, by omega⟩

/-- A nonempty list whose first record is a node has at least one node. -/
theorem condEF_false_facts (ec : List Costs) (hne : ec ≠ [])
    (h2 : condEdgeFirst ec = false) : 1 ≤ numNodes ec := by
  cases ec with
  | nil => exact absurd rfl hne
  | cons c rest =>
    rw [condEdgeFirst] at h2
    rw [numNodes, List.filter_cons, if_pos (by simpa using h2)]
    simp

/-- Claim C8: for a nonempty episode whose records reference only positive
ids, `setup` raises a fatal error — producing no adjacency, traversal
order or predictions — exactly when a node record follows an already-seen
edge record, or an edge appears with zero node records seen, or an edge
references a node id strictly greater than the node count `N`; otherwise
it completes.  In particular an edge referencing `N + 1` errors before any
augmentation or prediction occurs. -/
theorem c8_setup_error_iff (K : Nat) (ec : List Costs) (hne : ec ≠ [])
    (hpos : ∀ c ∈ ec, ∀ cid ∈ c, 1 ≤ cid) (hlen : ec.length < 2^32) :
    isErr (setup K ec) = true ↔
      (condNodeAfterEdge ec = true ∨ condEdgeFirst ec = true ∨
        condBadEdgeId ec = true) := by
  by_cases h1 : condNodeAfterEdge ec = true
  · simp only [h1, true_or, iff_true]
    have hs := scan_err_cond ec h1 0
    cases hscan : scanRecords ec 0 0 with
    | error msg =>
      rw [setup]
      rw [hscan, except_bind_err]
      rfl
    | ok v =>
      rw [hscan] at hs
      cases hs
  · have h1f : condNodeAfterEdge ec = false := by
      cases hcne : condNodeAfterEdge ec
      · rfl
      · exact absurd hcne h1
    have hscan := scan_ok_shape ec h1f 0
    simp only [Nat.zero_add] at hscan
    rw [setup, hscan, except_bind_ok]
    dsimp only
    by_cases h2 : condEdgeFirst ec = true
    · obtain ⟨hn0, hepos⟩ := condEF_true_facts ec hne h1f h2
      simp only [h1f, h2, true_or, or_true, iff_true]
      rw [if_pos ⟨hn0, hepos⟩]
      rfl
    · have hN1 : 1 ≤ numNodes ec := condEF_false_facts ec hne (by
        cases hce : condEdgeFirst ec
        · rfl
        · exact absurd hce h2)
      rw [if_neg (by omega)]
      have hNlt : numNodes ec < 2^32 := by
        have := numNodes_add_numEdges ec
        omega
      have hbounds : ∀ i ∈ (List.range ec.length).drop (numNodes ec),
          i < ec.length := by
        intro i hi
        exact ((mem_drop_range ec.length (numNodes ec) i).mp hi).2
      have hQ0 : ∀ l ∈ List.replicate (numNodes ec) ([] : List Nat), ∀ id ∈ l,
          id < ec.length ∧ ∀ cid ∈ ec.getD id [], 1 ≤ cid ∧ cid ≤ numNodes ec := by
        intro l hl id hid
        rw [List.eq_of_mem_replicate hl] at hid
        cases hid
      obtain ⟨hokdir, herrdir⟩ := processEdgesAux ec (numNodes ec) hNlt hpos
        ((List.range ec.length).drop (numNodes ec))
        (List.replicate (numNodes ec) []) (by simp) hbounds hQ0
      by_cases h3 : condBadEdgeId ec = true
      · simp only [h1f, h2, h3, or_true, iff_true]
        have herr := herrdir ((condBad_iff ec h1f).mp h3)
        rw [processEdges]
        cases hpe : ((List.range ec.length).drop (numNodes ec)).foldlM
            (fun adj i => processOneEdge (numNodes ec) (ec.getD i []) i adj)
            (List.replicate (numNodes ec) []) with
        | error msg => rw [except_bind_err]; rfl
        | ok a => rw [hpe] at herr; cases herr
      · have hgood : ∀ i ∈ (List.range ec.length).drop (numNodes ec),
            ∀ cid ∈ ec.getD i [], cid ≤ numNodes ec := by
          intro i hi cid hcid
          by_contra hbig
          push_neg at hbig
          exact h3 ((condBad_iff ec h1f).mpr ⟨i, hi, cid, hcid, hbig⟩)
        obtain ⟨a, hpe, halen, hQ⟩ := hokdir hgood
        rw [processEdges, hpe, except_bind_ok]
        have hwf : GraphWF ec a (numNodes ec) := ⟨hNlt, halen, hQ⟩
        obtain ⟨out, hrun, _, _, _, _⟩ :=
          run_bfs_complete ec a (numNodes ec) hN1 hwf
        rw [hrun]
        simp only [h1f, h2, h3]
        simp [isErr]

/-- Witness for C8 on the episode `[node labeled 1, edge {2, 3}]`: the edge
references id `2 > N = 1`, so `setup` errors, and the claim-side condition
holds. -/
theorem c8_witness :
    isErr (setup 2 [[1], [2, 3]]) = true ↔
      (condNodeAfterEdge [[1], [2, 3]] = true ∨
        condEdgeFirst [[1], [2, 3]] = true ∨
        condBadEdgeId [[1], [2, 3]] = true) :=
  c8_setup_error_iff 2 [[1], [2, 3]] (by decide) (by decide) (by norm_num)
